import Mathlib

/-!
Verification of the Nyx points ledger (Memory cog, src/cogs/memory.py) and the
AsylumChat session start (src/cogs/asylumchat.py), as a shallow embedding.

Python dicts are modelled as insertion-ordered association lists with unique
update-in-place assignment, matching CPython dict semantics (insertion order
preserved, assignment to an existing key updates in place). Python ints are
modelled as Lean Int (unbounded in both). JSON documents are modelled by an
inductive type with integer numerals.
-/

namespace Nyx

/-- Lookup in a Python dict modelled as an insertion-ordered association list:
`m.get(k)` / `m[k]`. -/
def pyGet {α : Type} (m : List (String × α)) (k : String) : Option α :=
  (m.find? (fun p => p.1 == k)).map (fun p => p.2)

/-- Assignment `m[k] = v` on a Python dict: updates the first (unique) binding
of `k` in place, otherwise appends at the end (CPython insertion order). -/
def pySet {α : Type} (m : List (String × α)) (k : String) (v : α) :
    List (String × α) :=
  match m with
  | [] => [(k, v)]
  | (k0, v0) :: rest =>
      if k0 == k then (k, v) :: rest else (k0, v0) :: pySet rest k v

/-- The in-memory ledger `self.notes : Dict[str, int]` of the Memory cog. -/
abbrev Notes : Type := List (String × Int)

/-- `self.notes.get(user_id_str, 0)`: current balance, 0 when unknown
(memory.py, get_nyx_notes, line 173). -/
def get_nyx_notes (notes : Notes) (user_id : Int) : Int :=
  (pyGet notes (toString user_id)).getD 0

/-- The lock-guarded read-modify-write block of add_nyx_notes
(memory.py lines 148-152): read old total, clamp `max 0 (old + amount)`,
store it, and return the pair (updated dict, new total). -/
def add_nyx_notes_mem (notes : Notes) (user_id : Int) (amount : Int) :
    Notes × Int :=
  let user_id_str := toString user_id
  let old_total := (pyGet notes user_id_str).getD 0
  let new_total := max 0 (old_total + amount)
  (pySet notes user_id_str new_total, new_total)

/-- The lock-guarded block of set_nyx_notes (memory.py lines 189-193):
clamp `max 0 amount`, store it, return it. -/
def set_nyx_notes_mem (notes : Notes) (user_id : Int) (amount : Int) :
    Notes × Int :=
  let user_id_str := toString user_id
  let amount2 := max 0 amount
  (pySet notes user_id_str amount2, amount2)

/-- Apply a sequence of add_nyx_notes calls for one user to the in-memory
ledger, in order. -/
def run_adds (notes : Notes) (user_id : Int) (ds : List Int) : Notes :=
  ds.foldl (fun n d => (add_nyx_notes_mem n user_id d).1) notes

lemma pyGet_pySet_self {α : Type} (m : List (String × α)) (k : String) (v : α) :
    pyGet (pySet m k v) k = some v := by
  induction m with
  | nil => simp [pySet, pyGet, List.find?]
  | cons p rest ih =>
      obtain ⟨k0, v0⟩ := p
      by_cases h : k0 == k
      · simp [pySet, pyGet, h, List.find?]
      · simp only [pySet, h, if_false]
        simpa [pyGet, List.find?, h] using ih

lemma get_add_self (notes : Notes) (u d : Int) :
    get_nyx_notes (add_nyx_notes_mem notes u d).1 u =
      max 0 (get_nyx_notes notes u + d) := by
  simp [get_nyx_notes, add_nyx_notes_mem, pyGet_pySet_self]

/-- CLAIM C1. add_nyx_notes stores and returns `max 0 (current + delta)` for
every current balance and every delta, and a sequence of adds from an empty
ledger folds the per-step clamp: the final balance is
`foldl (fun b d => max 0 (b + d)) 0 ds`; in particular balance 5 followed by
delta -100 yields 0. -/
theorem add_balance_clamps_each_step :
    (∀ (notes : Notes) (u d : Int),
        (add_nyx_notes_mem notes u d).2 = max 0 (get_nyx_notes notes u + d) ∧
        get_nyx_notes (add_nyx_notes_mem notes u d).1 u =
          max 0 (get_nyx_notes notes u + d)) ∧
    (∀ (u : Int) (ds : List Int),
        get_nyx_notes (run_adds [] u ds) u =
          ds.foldl (fun b d => max 0 (b + d)) 0) ∧
    get_nyx_notes (run_adds [] 7 [5, -100]) 7 = 0 := by
  refine ⟨fun notes u d => ⟨rfl, get_add_self notes u d⟩, ?_, by decide⟩
  intro u ds
  have main : ∀ (ds : List Int) (notes : Notes),
      get_nyx_notes (run_adds notes u ds) u =
        ds.foldl (fun b d => max 0 (b + d)) (get_nyx_notes notes u) := by
    intro ds
    induction ds with
    | nil => intro notes; rfl
    | cons d rest ih =>
        intro notes
        have h1 : run_adds notes u (d :: rest) =
            run_adds (add_nyx_notes_mem notes u d).1 u rest := rfl
        rw [h1, ih, get_add_self]
        rfl
  have h0 : get_nyx_notes ([] : Notes) u = 0 := rfl
  rw [main ds [], h0]

/-- Witness for C1 at concrete inputs. -/
theorem add_balance_clamps_each_step_witness :
    (add_nyx_notes_mem [("3", (5 : Int))] 3 (-100)).2 = max 0 (5 + (-100)) ∧
    get_nyx_notes (run_adds [] 7 [10, -4, -100, 2]) 7 =
      [(10 : Int), -4, -100, 2].foldl (fun b d => max 0 (b + d)) 0 := by
  constructor
  · have h := (add_balance_clamps_each_step.1 [("3", (5 : Int))] 3 (-100)).1
    simpa using h
  · exact add_balance_clamps_each_step.2.1 7 [10, -4, -100, 2]

/-- JSON documents (with integer numerals), as produced by json.loads. -/
inductive Json where
  | null : Json
  | bool (b : Bool) : Json
  | num (n : Int) : Json
  | str (s : String) : Json
  | arr (elems : List Json) : Json
  | obj (entries : List (String × Json)) : Json

/-- Value of a decimal digit character, none for a non-digit. -/
def digitVal (c : Char) : Option Nat :=
  if c.isDigit then some (c.toNat - 48) else none

/-- Accumulate a run of decimal digits; none on the first non-digit. -/
def digitsAux : List Char → Nat → Option Nat
  | [], acc => some acc
  | c :: cs, acc =>
      match digitVal c with
      | some d => digitsAux cs (acc * 10 + d)
      | none => none

/-- Parse a nonempty all-digit character list as a Nat. -/
def digitsToNat : List Char → Option Nat
  | [] => none
  | cs => digitsAux cs 0

/-- Strip leading and trailing whitespace from a character list, as Python
int() does around a numeric string. -/
def stripChars (cs : List Char) : List Char :=
  ((cs.dropWhile Char.isWhitespace).reverse.dropWhile Char.isWhitespace).reverse

/-- Python int(s) on a string: optional surrounding whitespace, optional
sign, then a nonempty run of decimal digits; anything else raises
(modelled as none). -/
def parseIntStr (s : String) : Option Int :=
  match stripChars s.data with
  | [] => none
  | c :: rest =>
      if c == '+' then (digitsToNat rest).map (fun n => (n : Int))
      else if c == '-' then (digitsToNat rest).map (fun n => -(n : Int))
      else (digitsToNat (c :: rest)).map (fun n => (n : Int))

/-- Python int(x) applied to a decoded JSON value: ints pass through, bools
coerce (True is 1), integer strings parse; null, lists and objects raise
(TypeError), modelled as none. This is the coercion at memory.py line 111. -/
def coerceInt : Json → Option Int
  | .num n => some n
  | .bool b => some (if b then 1 else 0)
  | .str s => parseIntStr s
  | _ => none

/-- The validation loop of load_notes (memory.py lines 108-114): starting
from an empty dict, each entry whose value coerces to an int is stored under
its (already string) key; entries that fail coercion are skipped with a
warning. -/
def validateEntries : List (String × Json) → Notes → Notes
  | [], acc => acc
  | (user_id, points) :: rest, acc =>
      match coerceInt points with
      | some n => validateEntries rest (pySet acc user_id n)
      | none => validateEntries rest acc

/-- Outcome of reading one ledger file: the raw text abstracted to its parse
result. none models a missing file; empty models text that is blank after
strip; invalid models a json.JSONDecodeError. -/
inductive FileData where
  | empty : FileData
  | invalid : FileData
  | parsed (j : Json) : FileData

/-- Attempt of load_notes on a single file (memory.py lines 96-127): yields
some notes when this file produces a return (a parseable JSON object),
none when the loop falls through to the next file (missing, blank,
undecodable, or decoded to a non-object). -/
def loadFile : Option FileData → Option Notes
  | none => none
  | some .empty => none
  | some .invalid => none
  | some (.parsed j) =>
      match j with
      | .obj entries => some (validateEntries entries [])
      | _ => none

/-- load_notes over the file list [notes_file, backup_file] (memory.py
lines 96-132): first file that yields wins; if none does, the ledger is
initialized empty. -/
def load_notes : List (Option FileData) → Notes
  | [] => []
  | f :: rest =>
      match loadFile f with
      | some n => n
      | none => load_notes rest

/-- Serialization of save_notes (memory.py line 67): json.dumps of the notes
dict writes each key as a JSON string and each value as a JSON integer, in
insertion order. -/
def encodeNotes (notes : Notes) : Json :=
  .obj (notes.map (fun p => (p.1, Json.num p.2)))

/-- Every balance in the ledger is non-negative. -/
abbrev nonneg_store (m : Notes) : Prop := ∀ p ∈ m, 0 ≤ p.2

lemma mem_pySet {α : Type} {m : List (String × α)} {k : String} {v : α}
    {p : String × α} (h : p ∈ pySet m k v) : p ∈ m ∨ p = (k, v) := by
  induction m with
  | nil => simpa [pySet] using h
  | cons q rest ih =>
      obtain ⟨k0, v0⟩ := q
      by_cases hk : k0 == k
      · simp only [pySet, hk, if_true] at h
        rcases List.mem_cons.mp h with h1 | h1
        · right; exact h1
        · left; exact List.mem_cons_of_mem _ h1
      · simp only [pySet, hk, if_false] at h
        rcases List.mem_cons.mp h with h1 | h1
        · left; exact h1 ▸ List.mem_cons_self _ _
        · rcases ih h1 with h2 | h2
          · left; exact List.mem_cons_of_mem _ h2
          · right; exact h2

lemma nonneg_pySet {m : Notes} {k : String} {v : Int}
    (hm : nonneg_store m) (hv : 0 ≤ v) : nonneg_store (pySet m k v) := by
  intro p hp
  rcases mem_pySet hp with h | h
  · exact hm p h
  · rw [h]; exact hv

lemma nonneg_validate (entries : List (String × Json)) :
    ∀ acc : Notes,
      (∀ q ∈ entries, ∀ n : Int, coerceInt q.2 = some n → 0 ≤ n) →
      nonneg_store acc → nonneg_store (validateEntries entries acc) := by
  induction entries with
  | nil => intro acc _ hacc; exact hacc
  | cons q rest ih =>
      intro acc hq hacc
      obtain ⟨k, v⟩ := q
      unfold validateEntries
      cases hco : coerceInt v with
      | some n =>
          exact ih _ (fun r hr => hq r (List.mem_cons_of_mem _ hr))
            (nonneg_pySet hacc (hq (k, v) (List.mem_cons_self _ _) n hco))
      | none =>
          exact ih _ (fun r hr => hq r (List.mem_cons_of_mem _ hr)) hacc

/-- CLAIM C7, counterexample. load_notes does not clamp: a canonical file
decoding to the object with entry "9" mapped to -5 loads a ledger holding the
negative balance -5, so the load operation does not preserve the
non-negativity invariant. -/
theorem load_notes_keeps_negative_balance :
    load_notes [some (.parsed (.obj [("9", Json.num (-5))])), none] =
      [("9", (-5 : Int))] ∧
    ¬ nonneg_store
        (load_notes [some (.parsed (.obj [("9", Json.num (-5))])), none]) := by
  constructor
  · rfl
  · decide

/-- CLAIM C7, amended. add_nyx_notes and set_nyx_notes applied to a ledger
whose balances are all non-negative yield a ledger whose balances are all
non-negative (mutations clamp at 0); load_notes yields a non-negative ledger
provided every value in the loaded file that coerces to an integer coerces
to a non-negative one (load itself performs no clamping). -/
theorem store_nonneg_invariant :
    (∀ (notes : Notes) (u d : Int), nonneg_store notes →
        nonneg_store (add_nyx_notes_mem notes u d).1) ∧
    (∀ (notes : Notes) (u a : Int), nonneg_store notes →
        nonneg_store (set_nyx_notes_mem notes u a).1) ∧
    (∀ files : List (Option FileData),
        (∀ fd ∈ files, ∀ entries, fd = some (.parsed (.obj entries)) →
            ∀ q ∈ entries, ∀ n : Int, coerceInt q.2 = some n → 0 ≤ n) →
        nonneg_store (load_notes files)) := by
  refine ⟨?_, ?_, ?_⟩
  · intro notes u d h
    exact nonneg_pySet h (le_max_left 0 _)
  · intro notes u a h
    exact nonneg_pySet h (le_max_left 0 _)
  · intro files
    induction files with
    | nil => intro _ p hp; simp [load_notes] at hp
    | cons f rest ih =>
        intro hf
        unfold load_notes
        cases hlf : loadFile f with
        | none => exact ih (fun fd hfd => hf fd (List.mem_cons_of_mem _ hfd))
        | some n =>
            cases f with
            | none => simp [loadFile] at hlf
            | some fd =>
                cases fd with
                | empty => simp [loadFile] at hlf
                | invalid => simp [loadFile] at hlf
                | parsed j =>
                    cases j with
                    | obj entries =>
                        have he : n = validateEntries entries [] := by
                          simpa [loadFile] using hlf.symm
                        rw [he]
                        exact nonneg_validate entries []
                          (hf _ (List.mem_cons_self _ _) entries rfl)
                          (by intro p hp; simp at hp)
                    | null => simp [loadFile] at hlf
                    | bool b => simp [loadFile] at hlf
                    | num m => simp [loadFile] at hlf
                    | str s => simp [loadFile] at hlf
                    | arr l => simp [loadFile] at hlf

/-- Witness for the amended C7 at concrete inputs. -/
theorem store_nonneg_invariant_witness :
    nonneg_store (add_nyx_notes_mem [("1", (3 : Int))] 1 (-7)).1 ∧
    nonneg_store
      (load_notes [some (.parsed (.obj [("2", Json.num 4)])), none]) := by
  constructor
  · exact store_nonneg_invariant.1 [("1", (3 : Int))] 1 (-7) (by decide)
  · refine store_nonneg_invariant.2.2
      [some (.parsed (.obj [("2", Json.num 4)])), none] ?_
    intro fd hfd entries he q hq n hn
    rcases List.mem_cons.mp hfd with h1 | h1
    · rw [h1] at he
      have he2 : entries = [("2", Json.num 4)] := by
        injection he with he3
        injection he3 with he4
        injection he4 with he5
        exact he5.symm
      rw [he2] at hq
      rcases List.mem_cons.mp hq with h2 | h2
      · rw [h2] at hn
        simp [coerceInt] at hn
        omega
      · simp at h2
    · simp at h1
      rw [h1] at he
      exact absurd he (by simp)

lemma pySet_of_not_mem {α : Type} {m : List (String × α)} {k : String}
    (hk : k ∉ m.map Prod.fst) (v : α) : pySet m k v = m ++ [(k, v)] := by
  induction m with
  | nil => rfl
  | cons q rest ih =>
      obtain ⟨k0, v0⟩ := q
      have hk0 : k ≠ k0 ∧ k ∉ rest.map Prod.fst := by
        simpa [not_or] using hk
      have hne : (k0 == k) = false :=
        beq_eq_false_iff_ne.mpr (fun h => hk0.1 h.symm)
      simp [pySet, hne, ih hk0.2]

lemma validate_encode (m : Notes) :
    ∀ acc : Notes, (m.map Prod.fst).Nodup →
      (∀ k ∈ m.map Prod.fst, k ∉ acc.map Prod.fst) →
      validateEntries (m.map (fun p => (p.1, Json.num p.2))) acc = acc ++ m := by
  induction m with
  | nil => intro acc _ _; simp [validateEntries]
  | cons q rest ih =>
      intro acc hnd hdisj
      obtain ⟨k, v⟩ := q
      have hstep :
          validateEntries (((k, v) :: rest).map (fun p => (p.1, Json.num p.2)))
            acc =
          validateEntries (rest.map (fun p => (p.1, Json.num p.2)))
            (pySet acc k v) := rfl
      have hnd1 : (k :: rest.map Prod.fst).Nodup := by simpa using hnd
      have hk1 : k ∉ rest.map Prod.fst := (List.nodup_cons.mp hnd1).1
      have hnd2 : (rest.map Prod.fst).Nodup := (List.nodup_cons.mp hnd1).2
      have hdisj2 : ∀ k2 ∈ rest.map Prod.fst,
          k2 ∉ (acc ++ [(k, v)]).map Prod.fst := by
        intro k2 hk2
        have h1 : k2 ∉ acc.map Prod.fst := hdisj k2 (by simp [hk2])
        have h2 : k2 ≠ k := fun h => hk1 (h ▸ hk2)
        simp only [List.map_append, List.mem_append, List.map_cons,
          List.map_nil, List.mem_singleton, not_or]
        exact ⟨h1, h2⟩
      rw [hstep, pySet_of_not_mem (hdisj k (by simp)) v, ih _ hnd2 hdisj2,
        List.append_assoc, List.singleton_append]

/-- CLAIM C3. Round-trip law: for any ledger mapping (distinct string keys,
non-negative integer values), serializing it as save_notes does and loading
the resulting file back as load_notes does reproduces exactly the same
mapping, regardless of what the backup file holds. -/
theorem save_load_roundtrip (m : Notes) (b : Option FileData)
    (hnd : (m.map Prod.fst).Nodup) (_hpos : ∀ p ∈ m, 0 ≤ p.2) :
    load_notes [some (.parsed (encodeNotes m)), b] = m := by
  have h1 : loadFile (some (.parsed (encodeNotes m))) =
      some (validateEntries (m.map (fun p => (p.1, Json.num p.2))) []) := rfl
  have h2 := validate_encode m [] hnd (by intro k _ h; simp at h)
  simp only [load_notes, h1, h2, List.nil_append]

/-- Witness for C3 at a concrete mapping. -/
theorem save_load_roundtrip_witness :
    load_notes [some (.parsed (encodeNotes [("10", 3), ("4", 0), ("7", 25)])),
        some .invalid] =
      [("10", 3), ("4", 0), ("7", 25)] :=
  save_load_roundtrip [("10", 3), ("4", 0), ("7", 25)] (some .invalid)
    (by decide) (by decide)

/-- Whether a decoded JSON value is an object (a Python dict after
json.loads), as tested by isinstance(loaded_notes, dict). -/
def jsonIsObj : Json → Bool
  | .obj _ => true
  | _ => false

lemma mem_validate (entries : List (String × Json)) :
    ∀ (acc : Notes) (p : String × Int), p ∈ validateEntries entries acc →
      p ∈ acc ∨ ∃ v, (p.1, v) ∈ entries ∧ coerceInt v = some p.2 := by
  induction entries with
  | nil => intro acc p hp; exact Or.inl hp
  | cons q rest ih =>
      intro acc p hp
      obtain ⟨k, v⟩ := q
      unfold validateEntries at hp
      cases hco : coerceInt v with
      | some n =>
          rw [hco] at hp
          rcases ih _ p hp with h | ⟨w, hw1, hw2⟩
          · rcases mem_pySet h with h1 | h1
            · exact Or.inl h1
            · refine Or.inr ⟨v, ?_, ?_⟩
              · rw [h1]; exact List.mem_cons_self _ _
              · rw [h1]; simpa using hco
          · exact Or.inr ⟨w, List.mem_cons_of_mem _ hw1, hw2⟩
      | none =>
          rw [hco] at hp
          rcases ih _ p hp with h | ⟨w, hw1, hw2⟩
          · exact Or.inl h
          · exact Or.inr ⟨w, List.mem_cons_of_mem _ hw1, hw2⟩

/-- CLAIM C6. load_notes reads the canonical file first: a canonical file
decoding to a JSON object wins outright (the backup is ignored); a canonical
file that is missing, blank, undecodable, or decoded to a non-object falls
back to the backup file; when both fail the ledger initializes empty (no
error: load_notes is a total function); and every entry of the object kept
in the loaded ledger comes from an entry of the file whose value coerces to
an integer, under the same string key. -/
theorem load_fallback_and_validation :
    (∀ (entries : List (String × Json)) (b : Option FileData),
        load_notes [some (.parsed (.obj entries)), b] =
          validateEntries entries []) ∧
    (∀ b : Option FileData, load_notes [none, b] = load_notes [b]) ∧
    (∀ b : Option FileData, load_notes [some .empty, b] = load_notes [b]) ∧
    (∀ b : Option FileData, load_notes [some .invalid, b] = load_notes [b]) ∧
    (∀ (j : Json) (b : Option FileData), jsonIsObj j = false →
        load_notes [some (.parsed j), b] = load_notes [b]) ∧
    (∀ c b : Option FileData, loadFile c = none → loadFile b = none →
        load_notes [c, b] = []) ∧
    (∀ (entries : List (String × Json)) (p : String × Int),
        p ∈ validateEntries entries [] →
        ∃ v, (p.1, v) ∈ entries ∧ coerceInt v = some p.2) := by
  refine ⟨fun entries b => rfl, fun b => rfl, fun b => rfl, fun b => rfl,
    ?_, ?_, ?_⟩
  · intro j b hj
    cases j with
    | obj entries => simp [jsonIsObj] at hj
    | null => rfl
    | bool b2 => rfl
    | num n => rfl
    | str s => rfl
    | arr l => rfl
  · intro c b hc hb
    simp [load_notes, hc, hb]
  · intro entries p hp
    rcases mem_validate entries [] p hp with h | h
    · simp at h
    · exact h

/-- Witness for C6 at concrete inputs: an undecodable canonical file falls
back to a backup object whose string-valued entry "7" parses to 7 and whose
null-valued entry is dropped. -/
theorem load_fallback_and_validation_witness :
    load_notes [some .invalid,
        some (.parsed (.obj [("4", Json.str "7"), ("5", Json.null)]))] =
      validateEntries [("4", Json.str "7"), ("5", Json.null)] [] ∧
    load_notes [some .empty, none] = [] := by
  constructor
  · rw [load_fallback_and_validation.2.2.2.1
      (some (.parsed (.obj [("4", Json.str "7"), ("5", Json.null)])))]
    exact load_fallback_and_validation.1
      [("4", Json.str "7"), ("5", Json.null)] none
  · exact load_fallback_and_validation.2.2.2.2.2.1 (some .empty) none rfl rfl

/-- Comparison used by get_leaderboard (memory.py lines 214-218): sorted
with key x[1] and reverse True orders pairs by descending points. -/
def pointsGe (a b : Int × Int) : Prop := b.2 ≤ a.2

instance : DecidableRel pointsGe := fun a b => by
  unfold pointsGe; infer_instance

instance : IsTotal (Int × Int) pointsGe := ⟨fun a b => le_total b.2 a.2⟩

instance : IsTrans (Int × Int) pointsGe :=
  ⟨fun _ _ _ h1 h2 => le_trans h2 h1⟩

/-- The comprehension of get_leaderboard (memory.py line 215): int(uid)
applied to every stored key in insertion order, paired with its points; a
single non-integer key raises, modelled as none. -/
def leaderboardPairs : Notes → Option (List (Int × Int))
  | [] => some []
  | (uid, points) :: rest =>
      match parseIntStr uid, leaderboardPairs rest with
      | some i, some l => some ((i, points) :: l)
      | _, _ => none

/-- get_leaderboard (memory.py lines 201-219): the pair list sorted by
points descending, truncated to limit. Python sorted is a stable sort;
insertionSort is also stable for the same comparator, and any two stable
sorts with one comparator agree on every input, so the model computes the
identical output list. -/
def get_leaderboard (notes : Notes) (limit : Nat) :
    Option (List (Int × Int)) :=
  (leaderboardPairs notes).map
    (fun l => (List.insertionSort pointsGe l).take limit)

lemma leaderboardPairs_length {notes : Notes} {l : List (Int × Int)}
    (h : leaderboardPairs notes = some l) : l.length = notes.length := by
  induction notes generalizing l with
  | nil =>
      simp only [leaderboardPairs] at h
      rw [← Option.some_inj.mp h]
      rfl
  | cons q rest ih =>
      obtain ⟨uid, points⟩ := q
      simp only [leaderboardPairs] at h
      cases hp : parseIntStr uid with
      | none => rw [hp] at h; exact absurd h (by simp)
      | some i =>
          rw [hp] at h
          cases hr : leaderboardPairs rest with
          | none => rw [hr] at h; exact absurd h (by simp)
          | some l2 =>
              rw [hr] at h
              simp only [Option.some_inj] at h
              rw [← h]
              simp [ih hr]

lemma leaderboardPairs_eq_none {notes : Notes}
    (h : ∃ p ∈ notes, parseIntStr p.1 = none) :
    leaderboardPairs notes = none := by
  induction notes with
  | nil => simp at h
  | cons q rest ih =>
      obtain ⟨uid, points⟩ := q
      obtain ⟨p, hp, hnone⟩ := h
      rcases List.mem_cons.mp hp with h1 | h1
      · have : parseIntStr uid = none := by rw [h1] at hnone; exact hnone
        simp [leaderboardPairs, this]
      · have := ih ⟨p, h1, hnone⟩
        simp only [leaderboardPairs, this]
        cases parseIntStr uid <;> rfl

lemma leaderboardPairs_isSome {notes : Notes}
    (h : ∀ p ∈ notes, (parseIntStr p.1).isSome) :
    (leaderboardPairs notes).isSome := by
  induction notes with
  | nil => simp [leaderboardPairs]
  | cons q rest ih =>
      obtain ⟨uid, points⟩ := q
      have h1 : (parseIntStr uid).isSome := h (uid, points) (by simp)
      have h2 := ih (fun p hp => h p (List.mem_cons_of_mem _ hp))
      simp only [leaderboardPairs]
      cases hp : parseIntStr uid with
      | none => rw [hp] at h1; simp at h1
      | some i =>
          cases hr : leaderboardPairs rest with
          | none => rw [hr] at h2; simp at h2
          | some l => rfl

/-- CLAIM C8. Whenever get_leaderboard succeeds it returns min(limit, size)
pairs, ordered by points descending, and they dominate the pairs left out
(the output plus a remainder is a permutation of the full pair list, and
every output pair has at least the points of every remainder pair); on
balances 50, 10, 30, 5 for users 1, 2, 3, 4 the top 3 are user 1 with 50,
user 3 with 30, user 2 with 10. -/
theorem get_leaderboard_top_n :
    (∀ (notes : Notes) (limit : Nat) (lb : List (Int × Int)),
        get_leaderboard notes limit = some lb →
        lb.length = min limit notes.length ∧
        lb.Pairwise pointsGe ∧
        ∃ pairs rest, leaderboardPairs notes = some pairs ∧
          (lb ++ rest).Perm pairs ∧ ∀ a ∈ lb, ∀ b ∈ rest, pointsGe a b) ∧
    get_leaderboard [("1", 50), ("2", 10), ("3", 30), ("4", 5)] 3 =
      some [(1, 50), (3, 30), (2, 10)] := by
  constructor
  · intro notes limit lb h
    simp only [get_leaderboard, Option.map_eq_some'] at h
    obtain ⟨pairs, hpairs, hlb⟩ := h
    have hsorted : (List.insertionSort pointsGe pairs).Pairwise pointsGe :=
      List.sorted_insertionSort pointsGe pairs
    have hsplit : (List.insertionSort pointsGe pairs).take limit ++
        (List.insertionSort pointsGe pairs).drop limit =
        List.insertionSort pointsGe pairs := List.take_append_drop _ _
    refine ⟨?_, ?_, ?_⟩
    · rw [← hlb, List.length_take, List.length_insertionSort,
        leaderboardPairs_length hpairs]
    · rw [← hlb]
      exact hsorted.sublist (List.take_sublist _ _)
    · refine ⟨pairs, (List.insertionSort pointsGe pairs).drop limit,
        hpairs, ?_, ?_⟩
      · rw [← hlb, hsplit]
        exact List.perm_insertionSort pointsGe pairs
      · rw [← hlb]
        have := List.pairwise_append.mp (hsplit ▸ hsorted)
        exact this.2.2
  · decide

/-- Witness for C8 at concrete inputs, including a limit exceeding the
store size. -/
theorem get_leaderboard_top_n_witness :
    ∃ pairs rest,
      leaderboardPairs [("8", (2 : Int)), ("9", 6)] = some pairs ∧
      ([((9 : Int), (6 : Int)), (8, 2)] ++ rest).Perm pairs ∧
      ∀ a ∈ [((9 : Int), (6 : Int)), (8, 2)], ∀ b ∈ rest, pointsGe a b := by
  have h := (get_leaderboard_top_n.1 [("8", (2 : Int)), ("9", 6)] 10
    [(9, 6), (8, 2)] (by decide))
  exact h.2.2

/-- CLAIM C10. get_leaderboard is partial over the stored key domain: a
store holding any key that int() cannot parse makes it raise (modelled as
none); it succeeds whenever every key parses; and load_notes itself keeps
such keys, e.g. a file entry under key "abc" loads fine while int("abc")
raises. -/
theorem get_leaderboard_partial_on_keys :
    (∀ (notes : Notes) (limit : Nat), (∃ p ∈ notes, parseIntStr p.1 = none) →
        get_leaderboard notes limit = none) ∧
    (∀ (notes : Notes) (limit : Nat), (∀ p ∈ notes, (parseIntStr p.1).isSome) →
        (get_leaderboard notes limit).isSome) ∧
    load_notes [some (.parsed (.obj [("abc", Json.num 5)])), none] =
      [("abc", (5 : Int))] ∧
    parseIntStr "abc" = none := by
  refine ⟨?_, ?_, rfl, by decide⟩
  · intro notes limit h
    simp [get_leaderboard, leaderboardPairs_eq_none h]
  · intro notes limit h
    have := leaderboardPairs_isSome h
    simp only [get_leaderboard]
    cases hp : leaderboardPairs notes with
    | none => rw [hp] at this; simp at this
    | some l => rfl

/-- Witness for C10 at a concrete store holding the non-integer key kept by
load_notes. -/
theorem get_leaderboard_partial_on_keys_witness :
    get_leaderboard [("abc", (5 : Int))] 10 = none :=
  get_leaderboard_partial_on_keys.1 [("abc", (5 : Int))] 10
    ⟨("abc", (5 : Int)), by decide, by decide⟩

/-- Content found at a file path during the save protocol: either a
complete serialized snapshot of some ledger mapping, or the remains of an
interrupted write (a truncated, partial serialization). -/
inductive Content where
  | partialWrite : Content
  | snapshot (m : Notes) : Content
deriving DecidableEq

/-- The three paths save_notes touches (memory.py lines 62-76): the
canonical file nyxnotes.json, the backup file nyxnotes_backup.json, and the
temporary file nyxnotes.json.tmp. none models an absent file. -/
structure FS where
  canonical : Option Content
  backup : Option Content
  temp : Option Content
deriving DecidableEq

/-- The successive on-disk states of a completed save_notes (memory.py
lines 62-76): write the serialized mapping to the temp file (passing
through a partially-written temp file mid-write), then, when a canonical
file exists, remove any prior backup and rename canonical to backup, and
finally rename temp to canonical. Renames are atomic; only the temp write
passes through a partial state. -/
def saveStates (m : Notes) (fs : FS) : List FS :=
  let t1 : FS := ⟨fs.canonical, fs.backup, some Content.partialWrite⟩
  let t2 : FS := ⟨fs.canonical, fs.backup, some (Content.snapshot m)⟩
  match fs.canonical with
  | some c =>
      [fs, t1, t2,
       ⟨some c, none, some (Content.snapshot m)⟩,
       ⟨none, some c, some (Content.snapshot m)⟩,
       ⟨some (Content.snapshot m), some c, none⟩]
  | none =>
      [fs, t1, t2, ⟨some (Content.snapshot m), fs.backup, none⟩]

/-- CLAIM C2. Across every intermediate file-system state of the save
protocol, including the states a crash would freeze (in particular between
the temp-file write and the final rename), the canonical path holds either
nothing, the previous canonical content, or the complete new snapshot:
provided the previous canonical content was not itself a partial write, no
state exposes a partial write at the canonical path. -/
theorem save_canonical_never_partial (m : Notes) (fs : FS)
    (h : fs.canonical ≠ some Content.partialWrite) :
    ∀ s ∈ saveStates m fs,
      s.canonical ≠ some Content.partialWrite ∧
        (s.canonical = none ∨ s.canonical = fs.canonical ∨
          s.canonical = some (Content.snapshot m)) := by
  obtain ⟨co, b, t⟩ := fs
  cases co with
  | none =>
      intro s hs
      simp only [saveStates, List.mem_cons, List.not_mem_nil, or_false] at hs
      rcases hs with h1 | h1 | h1 | h1 <;> subst h1 <;> simp_all
  | some c =>
      intro s hs
      simp only [saveStates, List.mem_cons, List.not_mem_nil, or_false] at hs
      rcases hs with h1 | h1 | h1 | h1 | h1 | h1 <;> subst h1 <;> simp_all

/-- Witness for C2 at a concrete starting state and snapshot, evaluated at
the crash-window state between the canonical-to-backup rename and the final
temp-to-canonical rename. -/
theorem save_canonical_never_partial_witness :
    (FS.mk none (some (Content.snapshot [("1", 3)]))
        (some (Content.snapshot [("1", 8)]))).canonical ≠
      some Content.partialWrite ∧
      ((FS.mk none (some (Content.snapshot [("1", 3)]))
          (some (Content.snapshot [("1", 8)]))).canonical = none ∨
        (FS.mk none (some (Content.snapshot [("1", 3)]))
            (some (Content.snapshot [("1", 8)]))).canonical =
          (FS.mk (some (Content.snapshot [("1", 3)])) none none).canonical ∨
        (FS.mk none (some (Content.snapshot [("1", 3)]))
            (some (Content.snapshot [("1", 8)]))).canonical =
          some (Content.snapshot [("1", 8)])) :=
  save_canonical_never_partial [("1", (8 : Int))]
    ⟨some (Content.snapshot [("1", 3)]), none, none⟩ (by decide)
    ⟨none, some (Content.snapshot [("1", 3)]), some (Content.snapshot [("1", 8)])⟩
    (by decide)

/-- The except-handler of save_notes (memory.py lines 80-88): when the
backup file exists and the canonical file does not, rename backup to
canonical; the rename is best-effort (restoreOk false models the nested
rename itself failing, which is caught and only logged). -/
def restoreBackup (fs : FS) (restoreOk : Bool) : FS :=
  match fs.backup, fs.canonical with
  | some b, none => if restoreOk then ⟨some b, none, fs.temp⟩ else fs
  | _, _ => fs

/-- Failure-injection points inside the try-block of save_notes: the temp
write (line 66), the backup removal (line 72), the canonical-to-backup
rename (line 73) and the final temp-to-canonical rename (line 76). noFail
runs the protocol to completion. -/
inductive FailAt where
  | noFail
  | tempWrite
  | removeBackup
  | renameToBackup
  | renameTempToCanonical
deriving DecidableEq

/-- save_notes (memory.py lines 52-88) run to completion or to an injected
failure, then through the except-handler. Every exception is caught inside
save_notes, so the run is a total function: no error propagates to the
caller. An injected failure at a step the protocol does not execute (for
instance removeBackup when no backup exists) cannot fire, and the save
completes. -/
def save_notes_run (m : Notes) (fs : FS) (fp : FailAt) (restoreOk : Bool) :
    FS :=
  if fp = FailAt.tempWrite then
    restoreBackup ⟨fs.canonical, fs.backup, some Content.partialWrite⟩
      restoreOk
  else
    match fs.canonical with
    | some c =>
        if fp = FailAt.removeBackup ∧ fs.backup.isSome then
          restoreBackup ⟨some c, fs.backup, some (Content.snapshot m)⟩
            restoreOk
        else if fp = FailAt.renameToBackup then
          restoreBackup ⟨some c, none, some (Content.snapshot m)⟩ restoreOk
        else if fp = FailAt.renameTempToCanonical then
          restoreBackup ⟨none, some c, some (Content.snapshot m)⟩ restoreOk
        else
          ⟨some (Content.snapshot m), some c, none⟩
    | none =>
        if fp = FailAt.renameTempToCanonical then
          restoreBackup ⟨none, fs.backup, some (Content.snapshot m)⟩
            restoreOk
        else
          ⟨some (Content.snapshot m), fs.backup, none⟩

/-- Whether an injected failure point is actually executed by the protocol
on the given starting state (os.remove at line 72 runs only when canonical
and a prior backup both exist; the rename at line 73 only when canonical
exists). -/
def failureFires (fp : FailAt) (fs : FS) : Prop :=
  match fp with
  | FailAt.noFail => False
  | FailAt.tempWrite => True
  | FailAt.removeBackup => fs.canonical.isSome = true ∧ fs.backup.isSome = true
  | FailAt.renameToBackup => fs.canonical.isSome = true
  | FailAt.renameTempToCanonical => True

/-- add_nyx_notes including its persistence (memory.py lines 134-158): the
lock-guarded in-memory update, then save_notes on the updated mapping, then
the return of the new total. -/
def add_nyx_notes_full (notes : Notes) (fs : FS) (u d : Int) (fp : FailAt)
    (restoreOk : Bool) : Notes × FS × Int :=
  let r := add_nyx_notes_mem notes u d
  (r.1, save_notes_run r.1 fs fp restoreOk, r.2)

/-- set_nyx_notes including its persistence (memory.py lines 175-199). -/
def set_nyx_notes_full (notes : Notes) (fs : FS) (u a : Int) (fp : FailAt)
    (restoreOk : Bool) : Notes × FS × Int :=
  let r := set_nyx_notes_mem notes u a
  (r.1, save_notes_run r.1 fs fp restoreOk, r.2)

/-- CLAIM C5. A persistence failure is contained: whatever failure point is
injected and whether or not the best-effort restore succeeds, add_nyx_notes
and set_nyx_notes still return the new clamped value and the in-memory
mapping retains the mutation (save_notes_run is total, so nothing
propagates); and whenever a failure actually fires during a save whose
starting state had a canonical file, and the best-effort restore does not
itself fail, the previous canonical content is still in place afterwards. -/
theorem persistence_failure_contained :
    (∀ (notes : Notes) (fs : FS) (u d : Int) (fp : FailAt) (ro : Bool),
        (add_nyx_notes_full notes fs u d fp ro).2.2 =
          max 0 (get_nyx_notes notes u + d) ∧
        get_nyx_notes (add_nyx_notes_full notes fs u d fp ro).1 u =
          max 0 (get_nyx_notes notes u + d)) ∧
    (∀ (notes : Notes) (fs : FS) (u a : Int) (fp : FailAt) (ro : Bool),
        (set_nyx_notes_full notes fs u a fp ro).2.2 = max 0 a) ∧
    (∀ (m : Notes) (fs : FS) (fp : FailAt) (c : Content),
        failureFires fp fs → fs.canonical = some c →
        (save_notes_run m fs fp true).canonical = some c) := by
  refine ⟨?_, ?_, ?_⟩
  · intro notes fs u d fp ro
    exact ⟨rfl, get_add_self notes u d⟩
  · intro notes fs u a fp ro
    rfl
  · intro m fs fp c hfire hc
    obtain ⟨co, b, t⟩ := fs
    simp only at hc
    subst hc
    cases fp with
    | noFail => exact absurd hfire (by simp [failureFires])
    | tempWrite => simp [save_notes_run, restoreBackup]
    | removeBackup =>
        have hb : b.isSome = true := by
          simpa [failureFires] using hfire
        cases b with
        | none => simp at hb
        | some b0 => simp [save_notes_run, restoreBackup]
    | renameToBackup => simp [save_notes_run, restoreBackup]
    | renameTempToCanonical => simp [save_notes_run, restoreBackup]

/-- Witness for C5 at concrete inputs: a failure at the final rename with a
canonical file present leaves that canonical content in place, and the
mutation still returns its clamped value. -/
theorem persistence_failure_contained_witness :
    (add_nyx_notes_full [("1", (3 : Int))]
        ⟨some (Content.snapshot [("1", 3)]), none, none⟩ 1 4
        FailAt.renameTempToCanonical true).2.2 = max 0 ((3 : Int) + 4) ∧
    (save_notes_run [("1", (7 : Int))]
        ⟨some (Content.snapshot [("1", 3)]), none, none⟩
        FailAt.renameTempToCanonical true).canonical =
      some (Content.snapshot [("1", 3)]) := by
  constructor
  · have h := (persistence_failure_contained.1 [("1", (3 : Int))]
      ⟨some (Content.snapshot [("1", 3)]), none, none⟩ 1 4
      FailAt.renameTempToCanonical true).1
    rw [h]
    decide
  · exact persistence_failure_contained.2.2 [("1", (7 : Int))]
      ⟨some (Content.snapshot [("1", 3)]), none, none⟩
      FailAt.renameTempToCanonical (Content.snapshot [("1", 3)])
      (by trivial) rfl

/-- The two lock-protected phases of one add_nyx_notes call. The async-with
block of memory.py line 148 guards only the in-memory read-modify-write
(lines 149-154); the persist runs in save_notes (line 157), which acquires
the same self dot _lock a second time (line 57) after the first block has
released it. Each phase is atomic under the lock, but the event loop may
interleave other tasks between the two phases of one call. -/
inductive Phase where
  | rmw
  | save
deriving DecidableEq

/-- The schedules the locking discipline of the code admits for n
add_nyx_notes calls: the two phases of each call appear exactly once each
and in program order (rmw before save), with arbitrary interleaving across
calls, since the lock is released between a call's two phases. -/
def admissible (n : Nat) (sched : List (Nat × Phase)) : Prop :=
  (∀ s ∈ sched, s.1 < n) ∧
  ∀ i < n, sched.filter (fun s => s.1 == i) =
    [(i, Phase.rmw), (i, Phase.save)]

instance (n : Nat) (sched : List (Nat × Phase)) :
    Decidable (admissible n sched) := by
  unfold admissible; infer_instance

/-- A fully serialized schedule of two calls: no step of one call between
steps of the other. -/
def serializedTwo (sched : List (Nat × Phase)) : Prop :=
  sched = [(0, Phase.rmw), (0, Phase.save), (1, Phase.rmw), (1, Phase.save)] ∨
  sched = [(1, Phase.rmw), (1, Phase.save), (0, Phase.rmw), (0, Phase.save)]

/-- The fully sequential schedule: call 0 completes, then call 1, and so
on. -/
def seqSched (n : Nat) : List (Nat × Phase) :=
  (List.range n).flatMap (fun i => [(i, Phase.rmw), (i, Phase.save)])

/-- Event-loop execution of a schedule over a list of (user, delta) calls:
state is the in-memory dict and the last snapshot passed to the serializer;
an rmw step of call i performs its lock-guarded in-memory update, a save
step snapshots the current in-memory dict. -/
def runSched (ops : List (Int × Int)) (init : Notes) (disk : Option Notes) :
    List (Nat × Phase) → Notes × Option Notes
  | [] => (init, disk)
  | s :: rest =>
      match ops[s.1]? with
      | none => runSched ops init disk rest
      | some (u, d) =>
          match s.2 with
          | Phase.rmw => runSched ops (add_nyx_notes_mem init u d).1 disk rest
          | Phase.save => runSched ops init (some init) rest

/-- CLAIM C4, counterexample. The claim says no two concurrently invoked
mutations interleave any step of their read-modify-write-persist sequences;
but the code releases the store lock between the in-memory update and the
persist (save_notes re-acquires it), so the schedule that runs both
in-memory updates before either persist is admitted by the locking
discipline of the code and is not serialized. -/
theorem lock_released_between_update_and_persist :
    ¬ (∀ sched : List (Nat × Phase),
        admissible 2 sched → serializedTwo sched) := by
  intro h
  have h2 := h [(0, Phase.rmw), (1, Phase.rmw), (0, Phase.save),
    (1, Phase.save)] (by decide)
  rcases h2 with h1 | h1 <;> exact absurd h1 (by decide)

lemma admissible_rmw_count :
    ∀ (n : Nat) (sched : List (Nat × Phase)), admissible n sched →
      sched.countP (fun s => s.2 == Phase.rmw) = n := by
  intro n
  induction n with
  | zero =>
      intro sched h
      have : sched = [] := by
        cases sched with
        | nil => rfl
        | cons s rest => exact absurd (h.1 s (List.mem_cons_self _ _)) (by omega)
      rw [this]; rfl
  | succ n ih =>
      intro sched h
      have hperm := List.filter_append_perm (fun s => s.1 == n) sched
      have hcount := hperm.countP_eq (fun s => s.2 == Phase.rmw)
      have hfn : sched.filter (fun s => s.1 == n) =
          [(n, Phase.rmw), (n, Phase.save)] := h.2 n (Nat.lt_succ_self n)
      have hrest : admissible n (sched.filter (fun s => !(s.1 == n))) := by
        constructor
        · intro s hs
          have hmem := List.mem_filter.mp hs
          have h1 := h.1 s hmem.1
          have h2 : s.1 ≠ n := by
            intro he
            rw [he] at hmem
            simp at hmem
          omega
        · intro i hi
          rw [List.filter_filter]
          have : ∀ s ∈ sched,
              ((s.1 == i) && !(s.1 == n)) = (s.1 == i) := by
            intro s _
            by_cases hsi : s.1 = i
            · have hne : i ≠ n := by omega
              simp [hsi, hne]
            · simp [hsi]
          rw [List.filter_congr this]
          exact h.2 i (Nat.lt_succ_of_lt hi)
      have hone : (sched.filter (fun s => s.1 == n)).countP
          (fun s => s.2 == Phase.rmw) = 1 := by
        rw [hfn]; rfl
      have := ih _ hrest
      rw [List.countP_append, hone, this] at hcount
      omega

lemma runSched_balance (n : Nat) (u : Int) :
    ∀ (sched : List (Nat × Phase)) (notes : Notes) (disk : Option Notes),
      (∀ s ∈ sched, s.1 < n) → 0 ≤ get_nyx_notes notes u →
      get_nyx_notes (runSched (List.replicate n (u, 5)) notes disk sched).1 u
        = get_nyx_notes notes u +
            5 * sched.countP (fun s => s.2 == Phase.rmw) := by
  intro sched
  induction sched with
  | nil => intro notes disk _ _; simp [runSched]
  | cons s rest ih =>
      intro notes disk hlt hb
      have hs1 : s.1 < n := hlt s (List.mem_cons_self _ _)
      have hget : (List.replicate n ((u : Int), (5 : Int)))[s.1]? =
          some (u, 5) := by
        rw [List.getElem?_replicate, if_pos hs1]
      cases s with
      | mk i ph =>
          cases ph with
          | rmw =>
              have hstep : runSched (List.replicate n (u, 5)) notes disk
                  ((i, Phase.rmw) :: rest) =
                  runSched (List.replicate n (u, 5))
                    (add_nyx_notes_mem notes u 5).1 disk rest := by
                simp only [runSched]
                rw [hget]
              have hbal : get_nyx_notes (add_nyx_notes_mem notes u 5).1 u =
                  get_nyx_notes notes u + 5 := by
                rw [get_add_self]
                omega
              rw [hstep, ih _ disk (fun t ht => hlt t
                (List.mem_cons_of_mem _ ht)) (by rw [hbal]; omega), hbal]
              have hcnt : ((i, Phase.rmw) :: rest).countP
                  (fun s => s.2 == Phase.rmw) =
                  rest.countP (fun s => s.2 == Phase.rmw) + 1 := by
                rw [List.countP_cons]
                rfl
              rw [hcnt]
              push_cast
              ring
          | save =>
              have hstep : runSched (List.replicate n (u, 5)) notes disk
                  ((i, Phase.save) :: rest) =
                  runSched (List.replicate n (u, 5)) notes (some notes)
                    rest := by
                simp only [runSched]
                rw [hget]
              have hcnt : ((i, Phase.save) :: rest).countP
                  (fun s => s.2 == Phase.rmw) =
                  rest.countP (fun s => s.2 == Phase.rmw) := by
                rw [List.countP_cons]
                rfl
              rw [hstep, ih _ (some notes) (fun t ht => hlt t
                (List.mem_cons_of_mem _ ht)) hb, hcnt]

/-- CLAIM C4, amended. The in-memory read-modify-write of each
add_nyx_notes call is individually lock-protected and atomic, so although
phases of concurrent calls may interleave (the lock is released before the
persist), no update is lost: for every schedule admitted by the locking
discipline, n logically concurrent add_nyx_notes(u, 5) calls move the
balance of u from any non-negative start b exactly to b + 5n. -/
theorem concurrent_adds_no_lost_updates (n : Nat) (u : Int)
    (sched : List (Nat × Phase)) (notes : Notes) (disk : Option Notes)
    (hadm : admissible n sched) (hb : 0 ≤ get_nyx_notes notes u) :
    get_nyx_notes (runSched (List.replicate n (u, 5)) notes disk sched).1 u
      = get_nyx_notes notes u + 5 * n := by
  rw [runSched_balance n u sched notes disk hadm.1 hb,
    admissible_rmw_count n sched hadm]

set_option maxRecDepth 8192 in
/-- Witness for the amended C4: one hundred sequentially scheduled
add_nyx_notes(u, 5) calls starting from balance 0 end at exactly 500. -/
theorem concurrent_adds_no_lost_updates_witness :
    get_nyx_notes
      (runSched (List.replicate 100 ((7 : Int), 5)) [] none (seqSched 100)).1
      7 = get_nyx_notes [] 7 + 5 * 100 :=
  concurrent_adds_no_lost_updates 100 7 (seqSched 100) [] none
    (by decide) (by decide)

/-- A session record as created by the asylumchat command (asylumchat.py
lines 281-290): the dict literal with its type tag, channel id, lifecycle
state, active flag, message buffer, selected mode and initiator; the
started timestamp field (wall clock) is omitted from the model. -/
structure Session where
  type_tag : String
  channel_id : Int
  state : String
  active : Bool
  messages : List String
  mode : Option Nat
  initiator : Int
deriving DecidableEq

/-- The process-wide registry bot dot active_sessions, keyed by
feature-specific strings. -/
abbrev SessionMap : Type := List (String × Session)

/-- The fresh session dict written at asylumchat.py lines 281-290. -/
def newAsylumSession (channel_id initiator : Int) : Session :=
  { type_tag := "asylumchat", channel_id := channel_id,
    state := "selecting_mode", active := true, messages := [],
    mode := none, initiator := initiator }

/-- Outcome of the asylumchat start command, as far as the registry is
concerned: the rejection path sends an Active Session embed and leaves the
registry alone; the started path writes the new record. -/
inductive StartResult where
  | alreadyActive (sessions : SessionMap)
  | started (sessions : SessionMap)
deriving DecidableEq

/-- The session key of the asylumchat cog (asylumchat.py line 252). -/
def asylumKey (channel_id : Int) : String :=
  "asylum-" ++ toString channel_id

/-- The registry transition of the asylumchat command (asylumchat.py lines
251-290): reject when the key holds a record whose active flag is truthy
(line 253 tests both membership and the active value); otherwise write a
fresh record under the key. Channel allow-listing and embed delivery are
external I/O, outside the registry transition. -/
def start_asylumchat (sessions : SessionMap) (channel_id initiator : Int) :
    StartResult :=
  let key := asylumKey channel_id
  match pyGet sessions key with
  | some s =>
      if s.active then StartResult.alreadyActive sessions
      else StartResult.started
        (pySet sessions key (newAsylumSession channel_id initiator))
  | none => StartResult.started
      (pySet sessions key (newAsylumSession channel_id initiator))

/-- CLAIM C9, counterexample. A record that exists for the key but is
inactive does not cause a rejection: the command overwrites it with a fresh
session, so start does not fail whenever a record exists, and records are
created also when one already exists. -/
theorem start_overwrites_inactive_session :
    start_asylumchat
        [(asylumKey 5, { newAsylumSession 5 11 with active := false })]
        5 99 =
      StartResult.started [(asylumKey 5, newAsylumSession 5 99)] := by
  rfl

/-- CLAIM C9, amended. Start fails with the AlreadyActive rejection,
leaving the registry unchanged, exactly when a record exists for the key
with its active flag true; when no record exists, or the existing record is
inactive, a fresh selecting-mode record is written under the key
(overwriting an inactive one). -/
theorem start_asylumchat_collision_rule (sessions : SessionMap)
    (channel_id initiator : Int) :
    (∀ s, pyGet sessions (asylumKey channel_id) = some s →
        s.active = true →
        start_asylumchat sessions channel_id initiator =
          StartResult.alreadyActive sessions) ∧
    (pyGet sessions (asylumKey channel_id) = none →
        start_asylumchat sessions channel_id initiator =
          StartResult.started (pySet sessions (asylumKey channel_id)
            (newAsylumSession channel_id initiator))) ∧
    (∀ s, pyGet sessions (asylumKey channel_id) = some s →
        s.active = false →
        start_asylumchat sessions channel_id initiator =
          StartResult.started (pySet sessions (asylumKey channel_id)
            (newAsylumSession channel_id initiator))) := by
  refine ⟨?_, ?_, ?_⟩
  · intro s hs hact
    simp [start_asylumchat, hs, hact]
  · intro hs
    simp [start_asylumchat, hs]
  · intro s hs hact
    simp [start_asylumchat, hs, hact]

/-- Witness for the amended C9: starting in an empty registry creates the
record, and starting again right away is rejected with the registry
unchanged. -/
theorem start_asylumchat_collision_rule_witness :
    start_asylumchat [] 5 99 =
      StartResult.started (pySet [] (asylumKey 5) (newAsylumSession 5 99)) ∧
    start_asylumchat (pySet [] (asylumKey 5) (newAsylumSession 5 99)) 5 42 =
      StartResult.alreadyActive
        (pySet [] (asylumKey 5) (newAsylumSession 5 99)) := by
  constructor
  · exact (start_asylumchat_collision_rule [] 5 99).2.1 rfl
  · exact (start_asylumchat_collision_rule
      (pySet [] (asylumKey 5) (newAsylumSession 5 99)) 5 42).1
      (newAsylumSession 5 99) (by simp [pyGet, pySet, List.find?]) rfl

end Nyx
